import Mathlib

/-!
Verification development for the textual LLVM-IR feature extractor
(`feature_extractor2.py`).  The Python code works on raw strings with
`re` patterns; here every pattern is embedded as a deterministic scanner
over `List Char` that realises the exact leftmost/greedy/lazy backtracking
semantics of the corresponding Python regex, and every method of
`IRFeatureExtractor` is a total Lean function over those scanners.
All texts handled are ASCII, so the ASCII readings of `\w`, `\s`, `\d`
below coincide with Python's behaviour on the inputs considered.
-/

set_option maxRecDepth 20000

/-- Python `\s` (ASCII): the whitespace class used by `re` and `str.strip`. -/
def pySpace (c : Char) : Bool :=
  c = ' ' || c = '\t' || c = '\n' || c = '\r' || c = '\x0b' || c = '\x0c'

/-- Python `\w` (ASCII): letters, digits, underscore. -/
def isWordChar (c : Char) : Bool :=
  c.isAlpha || c.isDigit || c = '_'

/-- The character class `[\w.]` used for symbol names and labels. -/
def isWordDot (c : Char) : Bool :=
  isWordChar c || c = '.'

/-- The character class `[\d]`. -/
def isDigitChar (c : Char) : Bool :=
  c.isDigit

/-- `listStartsWith pat s` : does `s` begin with the literal `pat`? -/
def listStartsWith : List Char → List Char → Bool
  | [], _ => true
  | _ :: _, [] => false
  | p :: ps, c :: cs => p = c && listStartsWith ps cs

/-- Python `str.find`: index of the first occurrence of `pat` in `s`
(`none` models the `-1` result). -/
def findSub (pat : List Char) : List Char → Option Nat
  | [] => if listStartsWith pat [] then some 0 else none
  | c :: r =>
    if listStartsWith pat (c :: r) then some 0
    else (findSub pat r).map (· + 1)

/-- Decimal value of a digit run, as produced by Python `int` on a `\d+` capture. -/
def digitsToNat (l : List Char) : Nat :=
  l.foldl (fun a c => 10 * a + (c.toNat - 48)) 0

/-- Python `str.strip()`: remove leading and trailing whitespace. -/
def stripL (l : List Char) : List Char :=
  ((l.dropWhile pySpace).reverse.dropWhile pySpace).reverse

def defineTok : List Char := ("define").toList

/-- Inside the lookahead `(?=\n\s*(?:define|\Z))`, after the `\n`:
`\s*` then `define` or end of string. -/
def skipWsDefine : List Char → Bool
  | [] => true
  | c :: r =>
    if listStartsWith defineTok (c :: r) then true
    else if pySpace c then skipWsDefine r
    else false

/-- The lookahead `(?=\n\s*(?:define|\Z))` applied to the text following a `}`. -/
def lookaheadOk : List Char → Bool
  | '\n' :: r => skipWsDefine r
  | _ => false

/-- Lazy `.*?}(?=...)`: number of characters consumed up to and including the
first `}` whose following text passes the lookahead. -/
def firstGoodClose : List Char → Option Nat
  | [] => none
  | c :: r =>
    if c = '}' && lookaheadOk r then some 1
    else (firstGoodClose r).map (· + 1)

/-- Greedy `.*{` (with DOTALL): number of characters consumed up to and
including the last `{` after which the lazy `.*?}(?=...)` can still succeed.
The Python engine maximises `.*` first, so the last such `{` wins. -/
def lastOpenWithClose : List Char → Option Nat
  | [] => none
  | c :: r =>
    match lastOpenWithClose r with
    | some k => some (k + 1)
    | none =>
      if c = '{' && (firstGoodClose r).isSome then some 1
      else none

/-- Length of the match of `define.*{.*?}(?=\n\s*(?:define|\Z))` (DOTALL)
anchored at the start of `s`, if any. -/
def defineMatchLen (s : List Char) : Option Nat :=
  if listStartsWith defineTok s then
    match lastOpenWithClose (s.drop 6) with
    | none => none
    | some b =>
      match firstGoodClose (s.drop (6 + b)) with
      | none => none
      | some c => some (6 + b + c)
  else none

/-- `re.finditer` for the function pattern: leftmost matches, scanning resumes
after each match end.  Every match has length at least 8, so the recursion
`r.drop (n - 1)` below equals `(c :: r).drop n`, the position one past the
match.  The scan consumes at least one character per step, so structural
fuel of `length + 1` (supplied by the wrapper) realises the loop exactly. -/
def findMatchesAux : Nat → List Char → List (List Char)
  | 0, _ => []
  | _ + 1, [] => []
  | fuel + 1, c :: r =>
    match defineMatchLen (c :: r) with
    | some n => (c :: r).take n :: findMatchesAux fuel (r.drop (n - 1))
    | none => findMatchesAux fuel r

def findMatches (s : List Char) : List (List Char) :=
  findMatchesAux (s.length + 1) s

/-- `re.search(r'@([\w.]+)', s)`: the run of the first `@`-token, scanning
left to right; an `@` not followed by a `[\w.]` character is skipped. -/
def atTokenRun : List Char → Option (List Char)
  | [] => none
  | c :: r =>
    if c = '@' && (r.head?.any isWordDot) then some (r.takeWhile isWordDot)
    else atTokenRun r

/-- `_get_function_name`: first `@`-token of the whole region text, else "unknown". -/
def get_function_name (s : List Char) : String :=
  match atTokenRun s with
  | some run => String.mk run
  | none => "unknown"

/-- Python `dict` assignment `d[k] = v`: value replaced in place if the key
exists (keeping its first-insertion position), appended otherwise. -/
def dictUpsert (l : List (String × List Char)) (k : String) (v : List Char) :
    List (String × List Char) :=
  if l.any (fun p => p.1 == k) then
    l.map (fun p => if p.1 == k then (k, v) else p)
  else l ++ [(k, v)]

/-- `_split_into_functions`: the ordered name-to-text mapping built from the
`finditer` matches. -/
def split_into_functions (s : List Char) : List (String × List Char) :=
  (findMatches s).foldl (fun d m => dictUpsert d (get_function_name m) m) []

def labelColon : Char := ':'

/-- Length of the match of `\n\s*[\w.]+:` anchored at the start of `s`.
`\s*` is forced maximal (whitespace and `[\w.]` are disjoint, so giving
characters back cannot help), then `[\w.]+` maximal followed by `:`. -/
def labelMatchLen : List Char → Option Nat
  | [] => none
  | c :: r =>
    if c = '\n' then
      if ((r.drop (r.takeWhile pySpace).length).takeWhile isWordDot).length ≠ 0 then
        match ((r.drop (r.takeWhile pySpace).length).drop
            ((r.drop (r.takeWhile pySpace).length).takeWhile isWordDot).length).head? with
        | some c2 =>
          if c2 = labelColon then
            some (1 + (r.takeWhile pySpace).length +
              ((r.drop (r.takeWhile pySpace).length).takeWhile isWordDot).length + 1)
          else none
        | none => none
      else none
    else none

/-- `re.split(r'\n\s*[\w.]+:', s)`: the piece before the first separator,
and the list of (separator, following piece) segments, in textual order.
Each separator match has length at least 3, so `r.drop (n - 1)` below is
`(c :: r).drop n`. -/
def splitLabelsFuel : Nat → List Char → List Char × List (List Char × List Char)
  | 0, _ => ([], [])
  | _ + 1, [] => ([], [])
  | fuel + 1, c :: r =>
    match labelMatchLen (c :: r) with
    | some n =>
      let rest := splitLabelsFuel fuel (r.drop (n - 1))
      ([], ((c :: r).take n, rest.1) :: rest.2)
    | none =>
      let rest := splitLabelsFuel fuel r
      (c :: rest.1, rest.2)

def splitLabelsAux (s : List Char) : List Char × List (List Char × List Char) :=
  splitLabelsFuel (s.length + 1) s

/-- `_get_basic_blocks`: `re.split(r'\n\s*[\w.]+:', s)[1:]`, each piece
stripped, empty pieces removed. -/
def get_basic_blocks (s : List Char) : List (List Char) :=
  ((splitLabelsAux s).2.map (fun q => stripL q.2)).filter (fun b => b ≠ [])

/-- Length of the match of `\n\s+[^;}]` anchored at the start of `s`.
`\s+` is maximal; when the character after the run is `;` or `}` (or the
text ends) the engine gives one whitespace character back to `[^;}]`,
which needs the run to have length at least 2. -/
def instrMatchLen : List Char → Option Nat
  | '\n' :: r =>
    let w := (r.takeWhile pySpace).length
    if w = 0 then none
    else
      match (r.drop w).head? with
      | some c =>
        if c = ';' || c = '}' then (if 2 ≤ w then some (1 + w) else none)
        else some (2 + w)
      | none => if 2 ≤ w then some (1 + w) else none
  | _ => none

def labelWord : List Char := ("label").toList
def i1Word : List Char := ("i1").toList
def brWord : List Char := ("br").toList

/-- Length of the match of `br\s+(?:label|i1)` anchored at the start of `s`.
Giving back whitespace cannot help (`label`/`i1` do not start with
whitespace), so only the maximal `\s+` run is viable. -/
def brMatchLen (s : List Char) : Option Nat :=
  if listStartsWith brWord s then
    let r := s.drop 2
    let w := (r.takeWhile pySpace).length
    if w = 0 then none
    else
      let t := r.drop w
      if listStartsWith labelWord t then some (2 + w + 5)
      else if listStartsWith i1Word t then some (2 + w + 2)
      else none
  else none

/-- Length of the match of `br\s+i1` anchored at the start of `s`. -/
def brI1MatchLen (s : List Char) : Option Nat :=
  if listStartsWith brWord s then
    let r := s.drop 2
    let w := (r.takeWhile pySpace).length
    if w = 0 then none
    else if listStartsWith i1Word (r.drop w) then some (2 + w + 2)
    else none
  else none

def loopTok : List Char := ("loop:").toList

/-- Length of the match of `loop:.*\n` anchored at the start of `s`
(no DOTALL: the rest of the line, requiring the terminating newline). -/
def loopHeaderMatchLen (s : List Char) : Option Nat :=
  if listStartsWith loopTok s then
    let t := (s.drop 5).takeWhile (fun c => c ≠ '\n')
    match ((s.drop 5).drop t.length).head? with
    | some _ => some (5 + t.length + 1)
    | none => none
  else none

/-- `len(re.findall(pat, s))` for an anchored-match function `m`:
leftmost non-overlapping matches; after an empty match the scan advances
one position (CPython behaviour); otherwise it resumes at the match end. -/
def countMatchesAux (m : List Char → Option Nat) : Nat → List Char → Nat
  | 0, _ => 0
  | _ + 1, [] => if (m []).isSome then 1 else 0
  | fuel + 1, c :: r =>
    match m (c :: r) with
    | none => countMatchesAux m fuel r
    | some 0 => 1 + countMatchesAux m fuel r
    | some (n + 1) => 1 + countMatchesAux m fuel (r.drop n)

def countMatches (m : List Char → Option Nat) (s : List Char) : Nat :=
  countMatchesAux m (s.length + 1) s

/-- `re.findall(pat, s)` collecting the matched texts. -/
def findTextsAux (m : List Char → Option Nat) : Nat → List Char → List (List Char)
  | 0, _ => []
  | _ + 1, [] => if (m []).isSome then [[]] else []
  | fuel + 1, c :: r =>
    match m (c :: r) with
    | none => findTextsAux m fuel r
    | some 0 => [] :: findTextsAux m fuel r
    | some (n + 1) => (c :: r).take (n + 1) :: findTextsAux m fuel (r.drop n)

def findTexts (m : List Char → Option Nat) (s : List Char) : List (List Char) :=
  findTextsAux m (s.length + 1) s

/-- `re.findall(r'loop:.*\n', s)`: the loop-anchor header lines. -/
def loop_headers (s : List Char) : List (List Char) :=
  findTexts loopHeaderMatchLen s

/-- `len(re.findall(lit, s))` for a literal pattern: non-overlapping
occurrence count. -/
def countSubOcc (pat : List Char) (s : List Char) : Nat :=
  countMatches (fun t => if listStartsWith pat t then some pat.length else none) s

/-- The brace scan of `_get_loop_body`: number of characters consumed from
the text after the anchor position, stopping (inclusively) at the character
that brings the counter to 0, or consuming everything. -/
def braceScan : Nat → List Char → Nat
  | _, [] => 0
  | k, c :: r =>
    let k2 := if c = '{' then k + 1 else if c = '}' then k - 1 else k
    if k2 = 0 then 1 else 1 + braceScan k2 r

/-- `_get_loop_body`: locate the first occurrence of the header via
`str.find`, then scan forward with a brace counter starting at 1,
returning the scanned span (the remainder of the text when the counter
never reaches 0). -/
def get_loop_body (header text : List Char) : List Char :=
  match findSub header text with
  | none => []
  | some i => (text.drop i).take (1 + braceScan 1 (text.drop (i + 1)))

/-- Greedy `.*@([\w.]+)` on a line segment: characters consumed up to the
end of the capture of the last `@`-token, together with the capture. -/
def lastAtToken : List Char → Option (Nat × List Char)
  | [] => none
  | c :: r =>
    match lastAtToken r with
    | some (off, cap) => some (off + 1, cap)
    | none =>
      if c = '@' then
        match r.head? with
        | some d =>
          if isWordDot d then some (1 + (r.takeWhile isWordDot).length, r.takeWhile isWordDot)
          else none
        | none => none
      else none

def callWord : List Char := ("call").toList

/-- Match of `call\s+.*@([\w.]+)` anchored at the start of `s` (no DOTALL):
`call`, at least one whitespace character (the maximal run may cross
newlines), then the last `@`-token on the line where the run ends; the
match consumes through the end of the capture. -/
def callMatchAt (s : List Char) : Option (Nat × List Char) :=
  if listStartsWith callWord s then
    let r := s.drop 4
    let w := (r.takeWhile pySpace).length
    if w = 0 then none
    else
      match lastAtToken ((r.drop w).takeWhile (fun c => c ≠ '\n')) with
      | some (off, cap) => some (4 + w + off, cap)
      | none => none
  else none

/-- `re.findall` collecting group-1 captures, for an anchored matcher
returning (match length, capture). -/
def findCapsAux (m : List Char → Option (Nat × List Char)) : Nat → List Char → List String
  | 0, _ => []
  | _ + 1, [] =>
    match m [] with
    | some (_, cap) => [String.mk cap]
    | none => []
  | fuel + 1, c :: r =>
    match m (c :: r) with
    | none => findCapsAux m fuel r
    | some (0, cap) => String.mk cap :: findCapsAux m fuel r
    | some (n + 1, cap) => String.mk cap :: findCapsAux m fuel (r.drop n)

def findCaps (m : List Char → Option (Nat × List Char)) (s : List Char) : List String :=
  findCapsAux m (s.length + 1) s

/-- `re.findall(r'call\s+.*@([\w.]+)', s)`: the callee names. -/
def call_targets (s : List Char) : List String :=
  findCaps callMatchAt s

/-- Count of `\b<word>\b` matches: the word with `\w`-boundary checks on
both sides; `prev` is the character before the current position. -/
def wbCountAux (c0 : Char) (cs : List Char) : Nat → Option Char → List Char → Nat
  | 0, _, _ => 0
  | _ + 1, _, [] => 0
  | fuel + 1, prev, c :: r =>
    if listStartsWith (c0 :: cs) (c :: r)
        && (match prev with | none => true | some p => !isWordChar p)
        && (match ((c :: r).drop (cs.length + 1)).head? with
            | none => true
            | some q => !isWordChar q) then
      1 + wbCountAux c0 cs fuel (some (cs.getLastD c0)) ((c :: r).drop (cs.length + 1))
    else
      wbCountAux c0 cs fuel (some c) r

def wbCount (c0 : Char) (cs : List Char) (prev : Option Char) (s : List Char) : Nat :=
  wbCountAux c0 cs (s.length + 1) prev s

/-- `len(re.findall(fr'\b{word}\b', s))`. -/
def count_word (w : String) (s : List Char) : Nat :=
  match w.toList with
  | [] => 0
  | c :: cs => wbCount c cs none s

/-- `get_calls_no`: `len(re.findall(r'\bcall\b', s))`. -/
def get_calls_no (s : List Char) : Nat :=
  count_word "call" s

def internalWord : List Char := ("internal").toList

/-- `is_local`: 1 iff the first line contains the substring `internal`. -/
def is_local (s : List Char) : Nat :=
  if (findSub internalWord (s.takeWhile (fun c => c ≠ '\n'))).isSome then 1 else 0

/-- `count_specific_instructions`: `len(re.findall(fr'\b{instruction}\b', s))`. -/
def count_specific_instructions (s : List Char) (instruction : String) : Nat :=
  count_word instruction s

def profTok : List Char := ("!prof !").toList

/-- Greedy `.*![\d]+` on a line segment: characters consumed through the
end of the digit run of the last `!`-digits token. -/
def lastBangDigits : List Char → Option Nat
  | [] => none
  | c :: r =>
    match lastBangDigits r with
    | some k => some (k + 1)
    | none =>
      if c = '!' then
        match r.head? with
        | some d => if isDigitChar d then some (1 + (r.takeWhile isDigitChar).length) else none
        | none => none
      else none

/-- Match of `!prof ![\d]+.*![\d]+` anchored at the start of `s`
(no DOTALL), returning the matched text (group 0). -/
def profEntryMatch (s : List Char) : Option (List Char) :=
  if listStartsWith profTok s then
    let r := s.drop 7
    let d := (r.takeWhile isDigitChar).length
    if d = 0 then none
    else
      match lastBangDigits ((r.drop d).takeWhile (fun c => c ≠ '\n')) with
      | some off => some (s.take (7 + d + off))
      | none => none
  else none

/-- `re.search(r'!prof ![\d]+.*![\d]+', s)`: leftmost match text. -/
def searchProfEntry : List Char → Option (List Char)
  | [] => none
  | c :: r =>
    match profEntryMatch (c :: r) with
    | some t => some t
    | none => searchProfEntry r

def countTok : List Char := ("count:").toList

/-- `re.search(r'count:(\d+)', s)`: value of the first capture. -/
def searchCount : List Char → Option Nat
  | [] => none
  | c :: r =>
    if listStartsWith countTok (c :: r) then
      let d := ((c :: r).drop 6).takeWhile isDigitChar
      if d = [] then searchCount r else some (digitsToNat d)
    else searchCount r

/-- Greedy `.*count:(\d+)` on a line segment: capture of the last
`count:`-digits occurrence. -/
def lastCountCap : List Char → Option (List Char)
  | [] => none
  | c :: r =>
    match lastCountCap r with
    | some cap => some cap
    | none =>
      if listStartsWith countTok (c :: r) then
        let d := ((c :: r).drop 6).takeWhile isDigitChar
        if d = [] then none else some d
      else none

/-- Match of `!prof ![\d]+.*count:(\d+)` anchored at the start of `s`,
returning the capture value. -/
def profBlockMatch (s : List Char) : Option Nat :=
  if listStartsWith profTok s then
    let r := s.drop 7
    let d := (r.takeWhile isDigitChar).length
    if d = 0 then none
    else (lastCountCap ((r.drop d).takeWhile (fun c => c ≠ '\n'))).map digitsToNat
  else none

/-- `re.search(r'!prof ![\d]+.*count:(\d+)', s)`: leftmost capture value. -/
def searchProfBlock : List Char → Option Nat
  | [] => none
  | c :: r =>
    match profBlockMatch (c :: r) with
    | some v => some v
    | none => searchProfBlock r

/-- The name pattern inside `re.search(f'call.*@{function_name}', s)`:
the interpolated name is used as regex text, so a `.` in a name matches
any non-newline character. -/
def atNamePat : List Char → List Char → Bool
  | [], _ => true
  | _ :: _, [] => false
  | p :: pr, c :: cr =>
    (if p = '.' then c ≠ '\n' else p = c) && atNamePat pr cr

/-- Does a line segment contain `@` followed by the name pattern? -/
def lineHasAtName (pat : List Char) : List Char → Bool
  | [] => false
  | c :: r => (c = '@' && atNamePat pat r) || lineHasAtName pat r

/-- `re.search(f'call.*@{name}', s)` as a Boolean: some position starts
with `call` and the rest of that line contains `@` followed by the name. -/
def search_call_name (name : String) : List Char → Bool
  | [] => false
  | c :: r =>
    (if listStartsWith callWord (c :: r) then
      lineHasAtName name.toList (((c :: r).drop 4).takeWhile (fun x => x ≠ '\n'))
    else false)
    || search_call_name name r

/-- `_find_caller`: the first function text in the module mapping whose
text matches `call.*@{name of cur}`. -/
def find_caller (funcs : List (String × List Char)) (cur : List Char) :
    Option (List Char) :=
  (funcs.find? (fun p => search_call_name (get_function_name cur) p.2)).map (fun p => p.2)

/-- One step of the `while True` loop of `_calculate_caller_height`,
with explicit fuel.  The loop body is exactly the Python one: stop when no
caller is found or the caller's name was already visited, otherwise count
one hop, record the current name and move up. -/
def heightAux (funcs : List (String × List Char)) :
    Nat → List String → List Char → Nat
  | 0, _, _ => 0
  | fuel + 1, visited, cur =>
    match find_caller funcs cur with
    | none => 0
    | some caller =>
      if visited.contains (get_function_name caller) then 0
      else 1 + heightAux funcs fuel (get_function_name cur :: visited) caller

/-- `_calculate_caller_height`.  The Python loop is unbounded; the
stabilisation theorem for claim C2 shows any fuel of at least
`funcs.length + 1` gives the same value, so `funcs.length + 2` realises
the loop exactly. -/
def calculate_caller_height (funcs : List (String × List Char)) (cur : List Char) : Nat :=
  heightAux funcs (funcs.length + 2) [] cur

/-- `get_instruction_per_block`: average `\n\s+[^;}]` matches per basic
block; 0 when there are no blocks (Python returns the int 0 there, a float
quotient otherwise — modelled in ℚ). -/
def get_instruction_per_block (t : List Char) : ℚ :=
  let blocks := get_basic_blocks t
  if blocks = [] then 0
  else ((blocks.map (countMatches instrMatchLen)).sum : ℚ) / (blocks.length : ℚ)

/-- `get_successor_per_block`: average `br\s+(?:label|i1)` matches per block. -/
def get_successor_per_block (t : List Char) : ℚ :=
  let blocks := get_basic_blocks t
  if blocks = [] then 0
  else ((blocks.map (countMatches brMatchLen)).sum : ℚ) / (blocks.length : ℚ)

/-- The dictionary returned by `get_loop_features`. -/
structure LoopFeatures where
  avg_nested_loop_level : ℚ
  instr_per_loop : ℚ
  block_with_multiple_succ_per_loop : ℚ
  max_loop_depth : Nat
  num_callsite_in_loop : Nat
deriving DecidableEq, Repr

/-- `get_loop_features`: all-zero when no `loop:.*\n` anchors are found,
otherwise the per-anchor aggregates over the brace-scanned loop bodies. -/
def get_loop_features (t : List Char) : LoopFeatures :=
  let headers := loop_headers t
  if headers = [] then ⟨0, 0, 0, 0, 0⟩
  else
    let depths := headers.map (fun h => countSubOcc loopTok h)
    let bodies := headers.map (fun h => get_loop_body h t)
    let totalInstr := (bodies.map (countMatches instrMatchLen)).sum
    let multiSucc := (bodies.map (countMatches brI1MatchLen)).sum
    let callsites := (bodies.map (count_word "call")).sum
    { avg_nested_loop_level := (depths.sum : ℚ) / (depths.length : ℚ)
      instr_per_loop := (totalInstr : ℚ) / (headers.length : ℚ)
      block_with_multiple_succ_per_loop := (multiSucc : ℚ) / (headers.length : ℚ)
      max_loop_depth := depths.foldl max 0
      num_callsite_in_loop := callsites }

/-- The dictionary returned by `get_call_graph_features`. -/
structure CallGraphFeatures where
  caller_height : Nat
  call_usage : Nat
  is_recursive : Nat
  entry_block_freq : Nat
  max_callsite_block_freq : Nat
deriving DecidableEq, Repr

/-- `get_call_graph_features`: callee list, recursion flag, call usage,
profiling-derived frequencies and caller height for one function text. -/
def get_call_graph_features (funcs : List (String × List Char)) (t : List Char) :
    CallGraphFeatures :=
  let calls := call_targets t
  let entry_freq :=
    match searchProfEntry t with
    | none => 0
    | some g0 => (searchCount g0).getD 0
  let block_freqs := (get_basic_blocks t).filterMap searchProfBlock
  { caller_height := calculate_caller_height funcs t
    call_usage := calls.length
    is_recursive := if calls.contains (get_function_name t) then 1 else 0
    entry_block_freq := entry_freq
    max_callsite_block_freq := block_freqs.foldl max 0 }

/-- One output row of `extract_all_features`: every declared feature key is
a field, so every key is present by construction, and no field is optional. -/
structure FeatureRow where
  function_name : String
  instruction_per_block : ℚ
  successor_per_block : ℚ
  calls_no : Nat
  is_local : Nat
  ret_count : Nat
  fmul_count : Nat
  fdiv_count : Nat
  fadd_count : Nat
  fsub_count : Nat
  avg_nested_loop_level : ℚ
  instr_per_loop : ℚ
  block_with_multiple_succ_per_loop : ℚ
  max_loop_depth : Nat
  num_callsite_in_loop : Nat
  caller_height : Nat
  call_usage : Nat
  is_recursive : Nat
  entry_block_freq : Nat
  max_callsite_block_freq : Nat
deriving DecidableEq, Repr, Inhabited

/-- The row built for one `(func_name, func_text)` entry of the module
mapping, merging the basic, loop and call-graph feature dictionaries. -/
def build_row (funcs : List (String × List Char)) (func_name : String)
    (func_text : List Char) : FeatureRow :=
  let lf := get_loop_features func_text
  let cf := get_call_graph_features funcs func_text
  { function_name := func_name
    instruction_per_block := get_instruction_per_block func_text
    successor_per_block := get_successor_per_block func_text
    calls_no := get_calls_no func_text
    is_local := is_local func_text
    ret_count := count_specific_instructions func_text "ret"
    fmul_count := count_specific_instructions func_text "fmul"
    fdiv_count := count_specific_instructions func_text "fdiv"
    fadd_count := count_specific_instructions func_text "fadd"
    fsub_count := count_specific_instructions func_text "fsub"
    avg_nested_loop_level := lf.avg_nested_loop_level
    instr_per_loop := lf.instr_per_loop
    block_with_multiple_succ_per_loop := lf.block_with_multiple_succ_per_loop
    max_loop_depth := lf.max_loop_depth
    num_callsite_in_loop := lf.num_callsite_in_loop
    caller_height := cf.caller_height
    call_usage := cf.call_usage
    is_recursive := cf.is_recursive
    entry_block_freq := cf.entry_block_freq
    max_callsite_block_freq := cf.max_callsite_block_freq }

/-- `extract_all_features`: one row per entry of the module's function
mapping, in mapping order. -/
def extract_all_features (module : List Char) : List FeatureRow :=
  let funcs := split_into_functions module
  funcs.map (fun p => build_row funcs p.1 p.2)

/-- Position `i` of `s` carries an `@`-token (`@` followed by a `[\w.]`
character) — the spec-level notion of a symbol-reference token. -/
abbrev AtTokenAt (s : List Char) (i : Nat) : Prop :=
  s[i]? = some '@' ∧ (s[i + 1]?).any isWordDot = true

/-- Concrete module for the round-trip scenario of claim C1: function `A`
calls `B` twice and has one conditional branch; `B` calls itself once. -/
def c1Module : List Char :=
  ("define i32 @A(i32 %x) \x7b\nentry:\n  %a = call i32 @B(i32 1)\n  %b = call i32 @B(i32 2)\n  %c = icmp eq i32 %x, 0\n  br i1 %c, label %e, label %e\ne:\n  ret i32 0\n\x7d\ndefine i32 @B(i32 %y) \x7b\nentry:\n  %r = call i32 @B(i32 %y)\n  ret i32 %r\n\x7d\n").toList

/-- Module with two complete definition regions (`A`, `B`) followed by an
unterminated trailing region (`C`, no closing brace before end of file). -/
def c10Module : List Char :=
  ("define i32 @A() \x7b\ne:\n  ret i32 0\n\x7d\ndefine i32 @B() \x7b\ne:\n  ret i32 1\n\x7d\ndefine i32 @C() \x7b\ne:\n  ret i32 2\n").toList

/-- Module with one complete definition region (`A`) followed by an
unterminated trailing region (`C`). -/
def c10Single : List Char :=
  ("define i32 @A() \x7b\ne:\n  ret i32 0\n\x7d\ndefine i32 @C() \x7b\ne:\n  ret i32 1\n").toList

/-- The complete region `A` of `c10Single`. -/
def c10ARegion : List Char :=
  ("define i32 @A() \x7b\ne:\n  ret i32 0\n\x7d").toList

/-- Function region whose header line contains no `@`-token while the body
does (claim C7). -/
def c7Region : List Char :=
  ("define internal void () \x7b\n  %x = add i32 1, 2\n  call void @foo()\n\x7d").toList

/-- A self-recursive function text (claim C9 witness). -/
def selfRecText : List Char :=
  ("define void @solo() \x7b\ne:\n  %z = call void @solo()\n  ret void\n\x7d").toList

/-- Module containing one self-recursive function, ending with a newline so
that the splitter accepts it (claims C2/C3/C5 witnesses). -/
def soloModule : List Char :=
  ("define void @solo() \x7b\ne:\n  %z = call void @solo()\n  ret void\n\x7d\n").toList

/-- The single function region of `soloModule`. -/
def soloRegion : List Char :=
  ("define void @solo() \x7b\ne:\n  %z = call void @solo()\n  ret void\n\x7d").toList

/-- Texts for the claim C2 witness: `E` calls `D` and itself, so `D`'s
caller height is 2 in the two-function mapping. -/
def fDText : List Char := ("define @D() \x7b\n nothing\n\x7d").toList

def fEText : List Char := ("define @E() \x7b\n call @D()\n call @E()\n\x7d").toList

/-- A function text with one loop anchor for the claim C4 witness: the
anchor line is followed by balanced braces. -/
def c4BalText : List Char :=
  ("  br label %L ; loop:\n  if \x7b nest \x7b \x7d \x7d done \x7d tail").toList

def c4Header : List Char := ("loop:\n").toList

/-- A function text whose anchor is followed by one more `\x7b` than `\x7d`
(claim C4 truncation witness). -/
def c4TruncText : List Char :=
  ("  br label %L ; loop:\n  a \x7b b \x7b c \x7d d").toList

/-- A function text with labelled blocks for the claim C6 witness. -/
def c6Text : List Char :=
  ("header text\nentry:\n  %a = add i32 1, 2\nnext.1:\n   \nend:\n  ret i32 0\n").toList

/-- A function text with no label line at all (claim C8 witness). -/
def c8Text : List Char :=
  ("define void @z() \x7b \x7d").toList

/-- Module whose single function region contains the substring `loop:` on
its final line, with no terminating newline inside the region — so the
text contains `loop:` but no loop-anchor line (claim C5 witness). -/
def c5Module : List Char :=
  ("define i32 @q() \x7b\ne:\n  ret i32 0 ; loop: x \x7d\n").toList

/-- The single function region of `c5Module`. -/
def c5Region : List Char :=
  ("define i32 @q() \x7b\ne:\n  ret i32 0 ; loop: x \x7d").toList

/-- Occurrence count of a character, used to state the brace-balance
properties of the loop-body scan. -/
def countCh (c : Char) : List Char → Nat
  | [] => 0
  | x :: r => (if x = c then 1 else 0) + countCh c r

theorem listStartsWith_length {p s : List Char} (h : listStartsWith p s = true) :
    p.length ≤ s.length := by
  induction p generalizing s with
  | nil => simp
  | cons a p ih =>
    cases s with
    | nil => simp [listStartsWith] at h
    | cons c r =>
      simp only [listStartsWith, Bool.and_eq_true] at h
      simpa using Nat.succ_le_succ (ih h.2)

theorem firstGoodClose_spec {l : List Char} {k : Nat} (h : firstGoodClose l = some k) :
    1 ≤ k ∧ k ≤ l.length ∧ l[k - 1]? = some '}' := by
  induction l generalizing k with
  | nil => simp [firstGoodClose] at h
  | cons c r ih =>
    simp only [firstGoodClose] at h
    by_cases hc : (c = '}' && lookaheadOk r) = true
    · rw [if_pos hc] at h
      obtain rfl : k = 1 := by simpa using h.symm
      simp only [Bool.and_eq_true, decide_eq_true_eq] at hc
      simp [hc.1]
    · rw [if_neg hc] at h
      obtain ⟨k1, hk1, rfl⟩ := Option.map_eq_some'.mp h
      obtain ⟨h1, h2, h3⟩ := ih hk1
      refine ⟨by omega, by simp; omega, ?_⟩
      obtain ⟨j, rfl⟩ := Nat.exists_eq_add_of_le h1
      have hj : 1 + j - 1 = j := by omega
      rw [hj] at h3
      have hj2 : 1 + j + 1 - 1 = j + 1 := by omega
      rw [hj2, List.getElem?_cons_succ]
      exact h3

theorem lastOpenWithClose_spec {l : List Char} {b : Nat} (h : lastOpenWithClose l = some b) :
    1 ≤ b ∧ b ≤ l.length := by
  induction l generalizing b with
  | nil => simp [lastOpenWithClose] at h
  | cons c r ih =>
    simp only [lastOpenWithClose] at h
    cases hr : lastOpenWithClose r with
    | some k =>
      rw [hr] at h
      obtain rfl : b = k + 1 := by simpa using h.symm
      obtain ⟨h1, h2⟩ := ih hr
      constructor <;> simp <;> omega
    | none =>
      rw [hr] at h
      split at h
      · rename_i k heq
        exact absurd heq (by simp)
      · split at h
        · obtain rfl : b = 1 := by simpa using h.symm
          simp
        · exact absurd h (by simp)

theorem defineMatchLen_spec {s : List Char} {n : Nat} (h : defineMatchLen s = some n) :
    1 ≤ n ∧ n ≤ s.length ∧ s[n - 1]? = some '}' := by
  unfold defineMatchLen at h
  by_cases hs : listStartsWith defineTok s = true
  · rw [if_pos hs] at h
    have hlen : 6 ≤ s.length := by
      have := listStartsWith_length hs
      simpa [defineTok] using this
    split at h
    · exact absurd h (by simp)
    · rename_i b hb
      split at h
      · exact absurd h (by simp)
      · rename_i c hc
        obtain rfl : n = 6 + b + c := by simpa using h.symm
        obtain ⟨hb1, hb2⟩ := lastOpenWithClose_spec hb
        obtain ⟨hc1, hc2, hc3⟩ := firstGoodClose_spec hc
        rw [List.length_drop] at hb2 hc2
        refine ⟨by omega, by omega, ?_⟩
        rw [List.getElem?_drop] at hc3
        have : 6 + b + c - 1 = 6 + b + (c - 1) := by omega
        rw [this]
        exact hc3
  · rw [if_neg hs] at h; exact absurd h (by simp)

theorem take_getLast? {s : List Char} {n : Nat} {c : Char} (h1 : 1 ≤ n)
    (h2 : n ≤ s.length) (h3 : s[n - 1]? = some c) : (s.take n).getLast? = some c := by
  rw [List.getLast?_eq_getElem?]
  have hlen : (s.take n).length = n := by simp; omega
  rw [hlen, List.getElem?_take_of_lt (by omega)]
  exact h3

theorem findMatchesAux_lastBrace :
    ∀ (fuel : Nat) (s : List Char), s.length < fuel →
      ∀ m ∈ findMatchesAux fuel s, m.getLast? = some '}' := by
  intro fuel
  induction fuel with
  | zero => intro s hs; omega
  | succ fuel ih =>
    intro s hs m hm
    cases s with
    | nil => simp [findMatchesAux] at hm
    | cons c r =>
      simp only [findMatchesAux] at hm
      cases hd : defineMatchLen (c :: r) with
      | some n =>
        rw [hd] at hm
        obtain ⟨h1, h2, h3⟩ := defineMatchLen_spec hd
        rcases List.mem_cons.mp hm with rfl | hmem
        · exact take_getLast? h1 h2 h3
        · refine ih _ ?_ m hmem
          simp only [List.length_cons] at hs
          simp only [List.length_drop]
          omega
      | none =>
        rw [hd] at hm
        refine ih _ ?_ m hm
        simp only [List.length_cons] at hs
        omega

theorem dictUpsert_forall {P : String × List Char → Prop} {d : List (String × List Char)}
    {k : String} {v : List Char} (hd : ∀ q ∈ d, P q) (hv : P (k, v)) :
    ∀ q ∈ dictUpsert d k v, P q := by
  intro q hq
  unfold dictUpsert at hq
  by_cases hc : d.any (fun p => p.1 == k) = true
  · rw [if_pos hc] at hq
    obtain ⟨q0, hq0, hq0e⟩ := List.mem_map.mp hq
    by_cases he : (q0.1 == k) = true
    · rw [if_pos he] at hq0e; exact hq0e ▸ hv
    · rw [if_neg he] at hq0e; exact hq0e ▸ hd q0 hq0
  · rw [if_neg hc] at hq
    rcases List.mem_append.mp hq with hmem | hmem
    · exact hd q hmem
    · simp only [List.mem_singleton] at hmem
      exact hmem ▸ hv

theorem foldl_upsert_forall (Q : List Char → Prop) :
    ∀ (ms : List (List Char)) (acc : List (String × List Char)),
      (∀ q ∈ acc, Q q.2) → (∀ m ∈ ms, Q m) →
      ∀ p ∈ ms.foldl (fun d m2 => dictUpsert d (get_function_name m2) m2) acc, Q p.2 := by
  intro ms
  induction ms with
  | nil => intro acc hacc _ p hp; exact hacc p hp
  | cons m ms ih =>
    intro acc hacc hms p hp
    simp only [List.foldl_cons] at hp
    refine ih _ ?_ (fun x hx => hms x (List.mem_cons_of_mem _ hx)) p hp
    exact dictUpsert_forall hacc (hms m (List.mem_cons_self _ _))

theorem split_values_forall {Q : List Char → Prop} {s : List Char}
    (h : ∀ m ∈ findMatches s, Q m) :
    ∀ p ∈ split_into_functions s, Q p.2 :=
  foldl_upsert_forall Q (findMatches s) [] (by simp) h

/-- C1: the spec's round-trip scenario fails on the code.  For the module
`c1Module` (function `A` calls `B` twice with one conditional branch, `B`
calls itself once), the greedy `.*` in the splitter pattern
`define.*{.*?}(?=\n\s*(?:define|\Z))` makes the single leftmost match span
both definitions, so the analyzer yields exactly one row, keyed `A`, whose
`call_usage` is 3 (all three call instructions of the merged region) and
`is_recursive` is 0 — there is no row for `B` at all, contradicting the
claimed `A.call_usage = 2`, `B.is_recursive = 1` and `B` caller height 1. -/
theorem c1_round_trip_code_eval :
    (split_into_functions c1Module).map (fun p => p.1) = ["A"] ∧
    (extract_all_features c1Module).map
        (fun r => (r.function_name, r.call_usage, r.is_recursive, r.caller_height)) =
      [("A", 3, 0, 0)] := by
  constructor
  · decide
  · decide

/-- C10 (counterexample): for `c10Module` — two complete definition regions
`A` and `B` followed by an unterminated trailing region `C` — the splitter
maps only the key `A` (the single greedy match coalesces `A` and `B`), so
the preceding complete region `B` is not mapped, refuting the claim that
every preceding complete definition region is still mapped. -/
theorem c10_preceding_region_unmapped :
    (split_into_functions c10Module).map (fun p => p.1) = ["A"] := by decide

/-- C10 (amended): an unterminated trailing definition region is dropped,
never truncated — every value of the returned mapping ends at a closing
brace, so text after the final good closing brace (in particular a trailing
region with no `}`) appears in no mapped value; and with a single preceding
complete region that region is still mapped under its own name.  Preceding
complete regions are however not each mapped in general: consecutive
complete regions may be coalesced under the first region's name. -/
theorem c10_trailing_region_dropped :
    (∀ m : List Char, ∀ p ∈ split_into_functions m, p.2.getLast? = some '}') ∧
    split_into_functions c10Single = [("A", c10ARegion)] := by
  constructor
  · intro m p hp
    exact @split_values_forall (fun v => v.getLast? = some '}') m
      (fun mm hm => findMatchesAux_lastBrace _ m (by omega) mm hm) p hp
  · decide

/-- Witness for C10: the amended theorem applied to the concrete module
`c10Single` and its only mapping entry. -/
theorem c10_trailing_region_dropped_witness :
    ("A", c10ARegion).2.getLast? = some '}' :=
  c10_trailing_region_dropped.1 c10Single ("A", c10ARegion) (by decide)

/-- C8: when a function text yields zero basic blocks both per-block
averages are 0 by the explicit guard (no division is attempted, so no NaN
and no exception), and every function of the mapping still produces exactly
one row in function-level output, in mapping order. -/
theorem c8_zero_blocks_guarded :
    (∀ t : List Char, get_basic_blocks t = [] →
        get_instruction_per_block t = 0 ∧ get_successor_per_block t = 0) ∧
    ∀ m : List Char, (extract_all_features m).map (fun r => r.function_name) =
      (split_into_functions m).map (fun p => p.1) := by
  constructor
  · intro t h
    constructor
    · simp [get_instruction_per_block, h]
    · simp [get_successor_per_block, h]
  · intro m
    simp only [extract_all_features, List.map_map]
    rfl

/-- Witness for C8: `c8Text` has no label line, hence no blocks, and both
averaged features are 0. -/
theorem c8_zero_blocks_guarded_witness :
    get_basic_blocks c8Text = [] ∧
      get_instruction_per_block c8Text = 0 ∧ get_successor_per_block c8Text = 0 :=
  ⟨by decide, c8_zero_blocks_guarded.1 c8Text (by decide)⟩

/-- C9: in a module mapping containing exactly one function whose text
matches the caller search for its own name (a self-recursive function),
the caller-height computation returns 1, not 0: the function is found as
its own first caller (one hop), and the visited set stops the walk at the
next iteration. -/
theorem c9_self_recursion_height_one (k : String) (t : List Char)
    (h : search_call_name (get_function_name t) t = true) :
    calculate_caller_height [(k, t)] t = 1 := by
  have hfc : find_caller [(k, t)] t = some t := by
    simp [find_caller, List.find?, h]
  show heightAux [(k, t)] 3 [] t = 1
  rw [show (3 : Nat) = 2 + 1 from rfl]
  simp only [heightAux, hfc]
  simp

/-- Witness for C9: the self-recursive `solo` function. -/
theorem c9_self_recursion_height_one_witness :
    calculate_caller_height [("solo", selfRecText)] selfRecText = 1 :=
  c9_self_recursion_height_one "solo" selfRecText (by decide)

/-- C7 (counterexample): a region whose header line contains no
symbol-reference token but whose body does.  The code searches the whole
region text, so it returns `foo` rather than the claimed sentinel
`unknown`. -/
theorem c7_header_without_token_counterexample :
    get_function_name c7Region = "foo" ∧
      '@' ∉ c7Region.takeWhile (fun c => c ≠ '\n') := by decide

theorem get_instruction_per_block_nonneg (t : List Char) :
    0 ≤ get_instruction_per_block t := by
  unfold get_instruction_per_block
  by_cases h : get_basic_blocks t = []
  · simp [h]
  · rw [if_neg h]
    positivity

theorem get_successor_per_block_nonneg (t : List Char) :
    0 ≤ get_successor_per_block t := by
  unfold get_successor_per_block
  by_cases h : get_basic_blocks t = []
  · simp [h]
  · rw [if_neg h]
    positivity

theorem get_loop_features_nonneg (t : List Char) :
    0 ≤ (get_loop_features t).avg_nested_loop_level ∧
      0 ≤ (get_loop_features t).instr_per_loop ∧
      0 ≤ (get_loop_features t).block_with_multiple_succ_per_loop := by
  unfold get_loop_features
  by_cases h : loop_headers t = []
  · simp [h]
  · rw [if_neg h]
    refine ⟨?_, ?_, ?_⟩ <;> positivity

/-- C3: every row produced by the feature aggregator carries every declared
feature key — presence is by construction, since `FeatureRow` is a total
record with no optional field — and every numeric value is at least 0:
the rational (averaged) fields are guarded quotients of counts, and the
remaining fields are counts, flags or parsed nonnegative integers. -/
theorem c3_feature_rows_nonneg (m : List Char) :
    ∀ r ∈ extract_all_features m,
      0 ≤ r.instruction_per_block ∧ 0 ≤ r.successor_per_block ∧
      0 ≤ r.avg_nested_loop_level ∧ 0 ≤ r.instr_per_loop ∧
      0 ≤ r.block_with_multiple_succ_per_loop ∧
      0 ≤ r.calls_no ∧ 0 ≤ r.is_local ∧ 0 ≤ r.ret_count ∧ 0 ≤ r.fmul_count ∧
      0 ≤ r.fdiv_count ∧ 0 ≤ r.fadd_count ∧ 0 ≤ r.fsub_count ∧
      0 ≤ r.max_loop_depth ∧ 0 ≤ r.num_callsite_in_loop ∧ 0 ≤ r.caller_height ∧
      0 ≤ r.call_usage ∧ 0 ≤ r.is_recursive ∧ 0 ≤ r.entry_block_freq ∧
      0 ≤ r.max_callsite_block_freq := by
  intro r hr
  obtain ⟨p, _, rfl⟩ := List.mem_map.mp hr
  obtain ⟨h1, h2, h3⟩ := get_loop_features_nonneg p.2
  exact ⟨get_instruction_per_block_nonneg p.2, get_successor_per_block_nonneg p.2,
    h1, h2, h3, Nat.zero_le _, Nat.zero_le _, Nat.zero_le _, Nat.zero_le _,
    Nat.zero_le _, Nat.zero_le _, Nat.zero_le _, Nat.zero_le _, Nat.zero_le _,
    Nat.zero_le _, Nat.zero_le _, Nat.zero_le _, Nat.zero_le _, Nat.zero_le _⟩

/-- Witness for C3: the single row of `soloModule`. -/
theorem c3_feature_rows_nonneg_witness :
    0 ≤ ((extract_all_features soloModule).headI).instruction_per_block ∧
      0 ≤ ((extract_all_features soloModule).headI).avg_nested_loop_level := by
  have hne : extract_all_features soloModule ≠ [] := by decide
  have hmem : (extract_all_features soloModule).headI ∈ extract_all_features soloModule := by
    cases h : extract_all_features soloModule with
    | nil => exact absurd h hne
    | cons a l => exact List.mem_cons_self a l
  exact ⟨(c3_feature_rows_nonneg soloModule _ hmem).1,
    (c3_feature_rows_nonneg soloModule _ hmem).2.2.1⟩

theorem listStartsWith_iff {p s : List Char} : listStartsWith p s = true ↔ p <+: s := by
  induction p generalizing s with
  | nil => simp [listStartsWith]
  | cons a p ih =>
    cases s with
    | nil => simp [listStartsWith]
    | cons c r =>
      simp only [listStartsWith, Bool.and_eq_true, decide_eq_true_eq,
        List.cons_prefix_cons]
      exact and_congr_right (fun _ => ih)

theorem findMatchesAux_isInfix :
    ∀ (fuel : Nat) (s : List Char), s.length < fuel →
      ∀ m ∈ findMatchesAux fuel s, m <:+: s := by
  intro fuel
  induction fuel with
  | zero => intro s hs; omega
  | succ fuel ih =>
    intro s hs m hm
    cases s with
    | nil => simp [findMatchesAux] at hm
    | cons c r =>
      simp only [findMatchesAux] at hm
      cases hd : defineMatchLen (c :: r) with
      | some n =>
        rw [hd] at hm
        rcases List.mem_cons.mp hm with rfl | hmem
        · exact (List.take_prefix n (c :: r)).isInfix
        · have h1 : m <:+: r.drop (n - 1) := by
            refine ih _ ?_ m hmem
            simp only [List.length_cons] at hs
            simp only [List.length_drop]
            omega
          exact h1.trans ((List.drop_suffix (n - 1) r).isInfix.trans
            (List.suffix_cons c r).isInfix)
      | none =>
        rw [hd] at hm
        have h1 : m <:+: r := by
          refine ih _ ?_ m hm
          simp only [List.length_cons] at hs
          omega
        exact h1.trans (List.suffix_cons c r).isInfix

theorem split_values_isInfix {s : List Char} :
    ∀ p ∈ split_into_functions s, p.2 <:+: s :=
  @split_values_forall (fun v => v <:+: s) s
    (fun mm hm => findMatchesAux_isInfix _ s (by omega) mm hm)

theorem stripL_isInfix (l : List Char) : stripL l <:+: l := by
  have h1 : l.dropWhile pySpace <:+ l := List.dropWhile_suffix _
  have h2 : (l.dropWhile pySpace).reverse.dropWhile pySpace <:+
      (l.dropWhile pySpace).reverse := List.dropWhile_suffix _
  have h3 : ((l.dropWhile pySpace).reverse.dropWhile pySpace).reverse <+:
      l.dropWhile pySpace := by
    have := List.reverse_prefix.mpr h2
    simpa using this
  exact h3.isInfix.trans h1.isInfix

theorem labelMatchLen_spec {s : List Char} {n : Nat} (h : labelMatchLen s = some n) :
    s.head? = some '\n' ∧ 3 ≤ n ∧ n ≤ s.length ∧ s[n - 1]? = some ':' := by
  cases s with
  | nil => simp [labelMatchLen] at h
  | cons c r =>
    simp only [labelMatchLen] at h
    by_cases hc : c = '\n'
    · rw [if_pos hc] at h
      split at h
      · split at h
        · rename_i wrun hrun c2 hc2
          split at h
          · rename_i hcol
            obtain rfl :
                n = 1 + (r.takeWhile pySpace).length +
                  ((r.drop (r.takeWhile pySpace).length).takeWhile isWordDot).length + 1 := by
              simpa using h.symm
            rw [List.drop_drop, List.head?_drop] at hc2
            have hlt : (r.takeWhile pySpace).length +
                ((r.drop (r.takeWhile pySpace).length).takeWhile isWordDot).length <
                  r.length := by
              rw [List.getElem?_eq_some] at hc2
              exact hc2.1
            refine ⟨by simp [hc], by omega, by simp; omega, ?_⟩
            have hidx : 1 + (r.takeWhile pySpace).length +
                ((r.drop (r.takeWhile pySpace).length).takeWhile isWordDot).length + 1 - 1 =
                ((r.takeWhile pySpace).length +
                  ((r.drop (r.takeWhile pySpace).length).takeWhile isWordDot).length) + 1 := by
              omega
            rw [hidx, List.getElem?_cons_succ]
            rw [hcol] at hc2
            exact hc2
          · exact absurd h (by simp)
        · exact absurd h (by simp)
      · exact absurd h (by simp)
    · rw [if_neg hc] at h
      exact absurd h (by simp)

theorem splitLabelsFuel_join :
    ∀ (fuel : Nat) (s : List Char), s.length < fuel →
      (splitLabelsFuel fuel s).1 ++
        (((splitLabelsFuel fuel s).2.map (fun q => q.1 ++ q.2)).join) = s := by
  intro fuel
  induction fuel with
  | zero => intro s hs; omega
  | succ fuel ih =>
    intro s hs
    cases s with
    | nil => simp [splitLabelsFuel]
    | cons c r =>
      simp only [splitLabelsFuel]
      cases hd : labelMatchLen (c :: r) with
      | some n =>
        have hpos : 1 ≤ n := by
          obtain ⟨-, h1, -, -⟩ := labelMatchLen_spec hd
          omega
        have hrec := ih (r.drop (n - 1)) (by
          simp only [List.length_cons] at hs
          simp only [List.length_drop]; omega)
        simp only [List.map_cons, List.join_cons, List.nil_append, List.append_assoc]
        rw [hrec]
        have : r.drop (n - 1) = (c :: r).drop n := by
          obtain ⟨n2, rfl⟩ := Nat.exists_eq_add_of_le hpos
          simp [Nat.add_comm]
        rw [this, List.take_append_drop]
      | none =>
        have hrec := ih r (by simp only [List.length_cons] at hs; omega)
        simp only [List.cons_append, hrec]

theorem splitLabelsFuel_fst_isPrefix (fuel : Nat) (s : List Char) (h : s.length < fuel) :
    (splitLabelsFuel fuel s).1 <+: s :=
  ⟨((splitLabelsFuel fuel s).2.map (fun q => q.1 ++ q.2)).join, splitLabelsFuel_join fuel s h⟩

theorem splitLabelsFuel_snd_isInfix :
    ∀ (fuel : Nat) (s : List Char), s.length < fuel →
      ∀ q ∈ (splitLabelsFuel fuel s).2, q.2 <:+: s := by
  intro fuel
  induction fuel with
  | zero => intro s hs; omega
  | succ fuel ih =>
    intro s hs q hq
    cases s with
    | nil => simp [splitLabelsFuel] at hq
    | cons c r =>
      simp only [splitLabelsFuel] at hq
      cases hd : labelMatchLen (c :: r) with
      | some n =>
        rw [hd] at hq
        have hlen : (r.drop (n - 1)).length < fuel := by
          simp only [List.length_cons] at hs
          simp only [List.length_drop]; omega
        have hsub : r.drop (n - 1) <:+: c :: r :=
          (List.drop_suffix (n - 1) r).isInfix.trans (List.suffix_cons c r).isInfix
        rcases List.mem_cons.mp hq with rfl | hmem
        · exact ((splitLabelsFuel_fst_isPrefix fuel _ hlen).isInfix).trans hsub
        · exact (ih _ hlen q hmem).trans hsub
      | none =>
        rw [hd] at hq
        have hlen : r.length < fuel := by
          simp only [List.length_cons] at hs; omega
        exact (ih r hlen q hq).trans (List.suffix_cons c r).isInfix

theorem block_isInfix {t b : List Char} (hb : b ∈ get_basic_blocks t) : b <:+: t := by
  unfold get_basic_blocks at hb
  have hb2 := List.mem_of_mem_filter hb
  obtain ⟨q, hq, rfl⟩ := List.mem_map.mp hb2
  exact (stripL_isInfix q.2).trans (splitLabelsFuel_snd_isInfix _ t (by omega) q hq)

theorem profEntryMatch_starts {s : List Char} {g : List Char}
    (h : profEntryMatch s = some g) : listStartsWith profTok s = true := by
  unfold profEntryMatch at h
  by_cases hs : listStartsWith profTok s = true
  · exact hs
  · rw [if_neg hs] at h; exact absurd h (by simp)

theorem profBlockMatch_starts {s : List Char} {v : Nat}
    (h : profBlockMatch s = some v) : listStartsWith profTok s = true := by
  unfold profBlockMatch at h
  by_cases hs : listStartsWith profTok s = true
  · exact hs
  · rw [if_neg hs] at h; exact absurd h (by simp)

theorem searchProfEntry_isInfix :
    ∀ {t g : List Char}, searchProfEntry t = some g → profTok <:+: t := by
  intro t
  induction t with
  | nil => intro g h; simp [searchProfEntry] at h
  | cons c r ih =>
    intro g h
    simp only [searchProfEntry] at h
    cases hm : profEntryMatch (c :: r) with
    | some u =>
      exact (listStartsWith_iff.mp (profEntryMatch_starts hm)).isInfix
    | none =>
      rw [hm] at h
      exact (ih h).trans (List.suffix_cons c r).isInfix

theorem searchProfBlock_isInfix :
    ∀ {t : List Char} {v : Nat}, searchProfBlock t = some v → profTok <:+: t := by
  intro t
  induction t with
  | nil => intro v h; simp [searchProfBlock] at h
  | cons c r ih =>
    intro v h
    simp only [searchProfBlock] at h
    cases hm : profBlockMatch (c :: r) with
    | some u =>
      exact (listStartsWith_iff.mp (profBlockMatch_starts hm)).isInfix
    | none =>
      rw [hm] at h
      exact (ih h).trans (List.suffix_cons c r).isInfix

theorem loopHeaderMatchLen_starts {s : List Char} {n : Nat}
    (h : loopHeaderMatchLen s = some n) : listStartsWith loopTok s = true := by
  unfold loopHeaderMatchLen at h
  by_cases hs : listStartsWith loopTok s = true
  · exact hs
  · rw [if_neg hs] at h; exact absurd h (by simp)

theorem findTextsAux_loop_nil :
    ∀ (fuel : Nat) (s : List Char), ¬ loopTok <:+: s →
      findTextsAux loopHeaderMatchLen fuel s = [] := by
  intro fuel
  induction fuel with
  | zero => intro s _; rfl
  | succ fuel ih =>
    intro s hs
    cases s with
    | nil =>
      have : loopHeaderMatchLen [] = none := rfl
      simp [findTextsAux, this]
    | cons c r =>
      simp only [findTextsAux]
      cases hm : loopHeaderMatchLen (c :: r) with
      | some n =>
        exact absurd (listStartsWith_iff.mp (loopHeaderMatchLen_starts hm)).isInfix hs
      | none =>
        exact ih r (fun hr => hs (hr.trans (List.suffix_cons c r).isInfix))

theorem loop_headers_eq_nil {t : List Char} (h : ¬ loopTok <:+: t) :
    loop_headers t = [] :=
  findTextsAux_loop_nil _ t h

theorem findTextsAux_nil_of_no_anchor :
    ∀ (fuel : Nat) (s : List Char), (∀ u ∈ s.tails, loopHeaderMatchLen u = none) →
      findTextsAux loopHeaderMatchLen fuel s = [] := by
  intro fuel
  induction fuel with
  | zero => intro s _; rfl
  | succ fuel ih =>
    intro s hs
    cases s with
    | nil =>
      have h0 : loopHeaderMatchLen [] = none := hs [] (by simp)
      simp [findTextsAux, h0]
    | cons c r =>
      simp only [findTextsAux]
      have hc : loopHeaderMatchLen (c :: r) = none := by
        refine hs (c :: r) ?_
        rw [List.tails_cons]
        exact List.mem_cons_self _ _
      rw [hc]
      refine ih r ?_
      intro u hu
      refine hs u ?_
      rw [List.tails_cons]
      exact List.mem_cons_of_mem _ hu

/-- `loop_headers t = []` exactly captures "the text contains no
loop-anchor line": no suffix of `t` begins a match of `loop:.*\n`. -/
theorem loop_headers_nil_of_no_anchor {t : List Char}
    (h : ∀ u ∈ t.tails, loopHeaderMatchLen u = none) : loop_headers t = [] :=
  findTextsAux_nil_of_no_anchor _ t h

/-- C5: missing metadata is never an error and always yields zero defaults.
First part, per function text: any text containing no loop-anchor line (no
suffix begins a `loop:.*\n` match — in particular a text whose only
`loop:` occurrences sit on an unterminated final line) has all five loop
aggregates equal to 0.  Second part: the same five zeros hold for the row
the aggregator builds for any mapped function whose own text has no anchor
line, regardless of the rest of the module, and that row is indeed among
the module's output rows.  Third part: a module with no `!prof `
annotation anywhere yields `entry_block_freq = 0` and
`max_callsite_block_freq = 0` in every row.  No branch raises: every
function involved is total. -/
theorem c5_missing_metadata_zero_defaults :
    (∀ t : List Char, (∀ u ∈ t.tails, loopHeaderMatchLen u = none) →
      (get_loop_features t).avg_nested_loop_level = 0 ∧
      (get_loop_features t).instr_per_loop = 0 ∧
      (get_loop_features t).block_with_multiple_succ_per_loop = 0 ∧
      (get_loop_features t).max_loop_depth = 0 ∧
      (get_loop_features t).num_callsite_in_loop = 0) ∧
    (∀ m : List Char, ∀ p ∈ split_into_functions m,
      build_row (split_into_functions m) p.1 p.2 ∈ extract_all_features m ∧
      ((∀ u ∈ p.2.tails, loopHeaderMatchLen u = none) →
        (build_row (split_into_functions m) p.1 p.2).avg_nested_loop_level = 0 ∧
        (build_row (split_into_functions m) p.1 p.2).instr_per_loop = 0 ∧
        (build_row (split_into_functions m) p.1 p.2).block_with_multiple_succ_per_loop = 0 ∧
        (build_row (split_into_functions m) p.1 p.2).max_loop_depth = 0 ∧
        (build_row (split_into_functions m) p.1 p.2).num_callsite_in_loop = 0)) ∧
    (∀ m : List Char, ¬ profTok <:+: m →
      ∀ r ∈ extract_all_features m,
        r.entry_block_freq = 0 ∧ r.max_callsite_block_freq = 0) := by
  refine ⟨?_, ?_, ?_⟩
  · intro t h
    have hlf : get_loop_features t = ⟨0, 0, 0, 0, 0⟩ := by
      unfold get_loop_features
      rw [if_pos (loop_headers_nil_of_no_anchor h)]
    rw [hlf]
    exact ⟨rfl, rfl, rfl, rfl, rfl⟩
  · intro m p hp
    constructor
    · exact List.mem_map_of_mem (fun q => build_row (split_into_functions m) q.1 q.2) hp
    · intro h
      have hlf : get_loop_features p.2 = ⟨0, 0, 0, 0, 0⟩ := by
        unfold get_loop_features
        rw [if_pos (loop_headers_nil_of_no_anchor h)]
      simp [build_row, hlf]
  · intro m hno r hr
    obtain ⟨p, hp, rfl⟩ := List.mem_map.mp hr
    have hinf : p.2 <:+: m := split_values_isInfix p hp
    have hno2 : ¬ profTok <:+: p.2 := fun hx => hno (hx.trans hinf)
    have hentry : searchProfEntry p.2 = none := by
      cases he : searchProfEntry p.2 with
      | none => rfl
      | some g => exact absurd (searchProfEntry_isInfix he) hno2
    have hblocks : (get_basic_blocks p.2).filterMap searchProfBlock = [] := by
      rw [List.filterMap_eq_nil]
      intro b hb
      cases hv : searchProfBlock b with
      | none => rfl
      | some v =>
        exact absurd ((searchProfBlock_isInfix hv).trans (block_isInfix hb)) hno2
    constructor
    · simp [build_row, get_call_graph_features, hentry]
    · simp [build_row, get_call_graph_features, hblocks]

/-- Witness for C5: the region of `c5Module` contains `loop:` but no
anchor line, so its loop aggregates and its row's loop aggregates are 0;
and `soloModule` has no profiling annotation, so its row's frequency
features are 0. -/
theorem c5_missing_metadata_zero_defaults_witness :
    (get_loop_features c5Region).max_loop_depth = 0 ∧
      (build_row (split_into_functions c5Module) "q" c5Region).num_callsite_in_loop = 0 ∧
      ((extract_all_features soloModule).headI).entry_block_freq = 0 := by
  have hne : extract_all_features soloModule ≠ [] := by decide
  have hmem : (extract_all_features soloModule).headI ∈ extract_all_features soloModule := by
    cases h : extract_all_features soloModule with
    | nil => exact absurd h hne
    | cons a l => exact List.mem_cons_self a l
  refine ⟨(c5_missing_metadata_zero_defaults.1 c5Region (by decide)).2.2.2.1, ?_, ?_⟩
  · exact ((c5_missing_metadata_zero_defaults.2.1 c5Module ("q", c5Region)
      (by decide)).2 (by decide)).2.2.2.2
  · exact (c5_missing_metadata_zero_defaults.2.2 soloModule (by decide) _ hmem).1

theorem braceScan_no_zero :
    ∀ (rest : List Char) (k : Nat), 1 ≤ k →
      (∀ j, j ≤ rest.length →
        countCh '}' (rest.take j) + 1 ≤ k + countCh '{' (rest.take j)) →
      braceScan k rest = rest.length := by
  intro rest
  induction rest with
  | nil => intro k _ _; rfl
  | cons c r ih =>
    intro k hk h
    have h1 := h 1 (by simp)
    simp only [List.take_succ_cons, List.take_zero, countCh] at h1
    have hstep : ∀ j, j ≤ r.length →
        countCh '}' (r.take j) + 1 ≤
          (if c = '{' then k + 1 else if c = '}' then k - 1 else k) +
            countCh '{' (r.take j) := by
      intro j hj
      have hj1 := h (j + 1) (by simp; omega)
      simp only [List.take_succ_cons, countCh] at hj1
      by_cases hc1 : c = '{'
      · subst hc1; simp at hj1 ⊢; omega
      · by_cases hc2 : c = '}'
        · subst hc2; simp at h1 hj1 ⊢; omega
        · simp [hc1, hc2] at hj1 ⊢; omega
    have hk2pos : 1 ≤ (if c = '{' then k + 1 else if c = '}' then k - 1 else k) := by
      by_cases hc1 : c = '{'
      · subst hc1; simp
      · by_cases hc2 : c = '}'
        · subst hc2; simp at h1 ⊢; omega
        · simp [hc1, hc2]; omega
    simp only [braceScan]
    rw [if_neg (by omega)]
    rw [ih _ hk2pos hstep]
    simp only [List.length_cons]
    omega

theorem braceScan_first_zero :
    ∀ (rest : List Char) (k j0 : Nat), 1 ≤ k → 1 ≤ j0 → j0 ≤ rest.length →
      countCh '}' (rest.take j0) = k + countCh '{' (rest.take j0) →
      (∀ j, j < j0 →
        countCh '}' (rest.take j) + 1 ≤ k + countCh '{' (rest.take j)) →
      braceScan k rest = j0 ∧ rest[j0 - 1]? = some '}' := by
  intro rest
  induction rest with
  | nil => intro k j0 _ h1 h2 _ _; simp at h2; omega
  | cons c r ih =>
    intro k j0 hk hj0 hlen heq hstrict
    rcases j0 with _ | j0x
    · omega
    rcases j0x with _ | j1
    · simp only [List.take_succ_cons, List.take_zero, countCh] at heq
      by_cases hc2 : c = '}'
      · subst hc2
        simp at heq
        have hk1 : k = 1 := by omega
        subst hk1
        constructor
        · simp [braceScan]
        · simp
      · by_cases hc1 : c = '{'
        · subst hc1; simp at heq
        · simp [hc1, hc2] at heq; omega
    · have h1 := hstrict 1 (by omega)
      simp only [List.take_succ_cons, List.take_zero, countCh] at h1
      have hk2pos : 1 ≤ (if c = '{' then k + 1 else if c = '}' then k - 1 else k) := by
        by_cases hc1 : c = '{'
        · subst hc1; simp
        · by_cases hc2 : c = '}'
          · subst hc2; simp at h1 ⊢; omega
          · simp [hc1, hc2]; omega
      have heq2 : countCh '}' (r.take (j1 + 1)) =
          (if c = '{' then k + 1 else if c = '}' then k - 1 else k) +
            countCh '{' (r.take (j1 + 1)) := by
        simp only [List.take_succ_cons, countCh] at heq
        by_cases hc1 : c = '{'
        · subst hc1; simp at heq ⊢; omega
        · by_cases hc2 : c = '}'
          · subst hc2; simp at h1 heq ⊢; omega
          · simp [hc1, hc2] at heq ⊢; omega
      have hstrict2 : ∀ j, j < j1 + 1 →
          countCh '}' (r.take j) + 1 ≤
            (if c = '{' then k + 1 else if c = '}' then k - 1 else k) +
              countCh '{' (r.take j) := by
        intro j hj
        have := hstrict (j + 1) (by omega)
        simp only [List.take_succ_cons, countCh] at this
        by_cases hc1 : c = '{'
        · subst hc1; simp at this ⊢; omega
        · by_cases hc2 : c = '}'
          · subst hc2; simp at h1 this ⊢; omega
          · simp [hc1, hc2] at this ⊢; omega
      have hrec := ih _ (j1 + 1) hk2pos (by omega)
        (by simp only [List.length_cons] at hlen; omega) heq2 hstrict2
      constructor
      · simp only [braceScan]
        rw [if_neg (by omega), hrec.1]
        omega
      · simpa using hrec.2

/-- C4: the loop-body extraction scans forward from the anchor with a brace
counter starting at 1 (the character at the anchor position itself is not
examined), incrementing on `{`, decrementing on `}`, and stops when the
counter reaches 0 or end-of-text is reached.  First part: when the counter
reaches 0 — at the least position `j0` where the closing braces after the
anchor exceed the opening ones by exactly one — the returned body is the
span up to that balancing `}`, its last character is `}`, and its brace
count balances the initial counter exactly (one more `}` than `{` after
the anchor character).  Second part: when the counter never reaches 0
(prefix-wise the text after the anchor has at least as many `{` as `}`,
and one more `{` than `}` in total before end-of-file), the extraction
returns the truncated remainder of the text from the anchor on, and no
exception is raised — the function is total. -/
theorem c4_loop_body_brace_scan (header text : List Char) (i : Nat)
    (hfind : findSub header text = some i) :
    (∀ j0 : Nat, 1 ≤ j0 → j0 ≤ (text.drop (i + 1)).length →
      countCh '}' ((text.drop (i + 1)).take j0) =
        countCh '{' ((text.drop (i + 1)).take j0) + 1 →
      (∀ j, j < j0 →
        countCh '}' ((text.drop (i + 1)).take j) ≤
          countCh '{' ((text.drop (i + 1)).take j)) →
      get_loop_body header text = (text.drop i).take (1 + j0) ∧
      (get_loop_body header text).getLast? = some '}' ∧
      countCh '}' ((get_loop_body header text).drop 1) =
        countCh '{' ((get_loop_body header text).drop 1) + 1) ∧
    ((∀ j, j ≤ (text.drop (i + 1)).length →
        countCh '}' ((text.drop (i + 1)).take j) ≤
          countCh '{' ((text.drop (i + 1)).take j)) →
      countCh '{' (text.drop (i + 1)) = countCh '}' (text.drop (i + 1)) + 1 →
      get_loop_body header text = text.drop i) := by
  constructor
  · intro j0 hj01 hj0len heqc hstrictc
    have hbs := braceScan_first_zero (text.drop (i + 1)) 1 j0 (le_refl 1) hj01 hj0len
      (by omega) (fun j hj => by have := hstrictc j hj; omega)
    have hbody : get_loop_body header text = (text.drop i).take (1 + j0) := by
      unfold get_loop_body
      rw [hfind]
      show (text.drop i).take (1 + braceScan 1 (text.drop (i + 1))) = _
      rw [hbs.1]
    have hdlen : (text.drop (i + 1)).length = text.length - (i + 1) :=
      List.length_drop _ _
    have hilen : i + 1 + j0 ≤ text.length := by omega
    have hlast : (get_loop_body header text).getLast? = some '}' := by
      rw [hbody]
      refine take_getLast? (by omega) (by simp [List.length_drop]; omega) ?_
      have h2 := hbs.2
      rw [List.getElem?_drop] at h2 ⊢
      have : i + (1 + j0 - 1) = i + 1 + (j0 - 1) := by omega
      rw [this]
      exact h2
    refine ⟨hbody, hlast, ?_⟩
    have hdrop : (get_loop_body header text).drop 1 = (text.drop (i + 1)).take j0 := by
      rw [hbody, List.drop_take]
      have h1 : (text.drop i).drop 1 = text.drop (i + 1) := by
        rw [List.drop_drop]
      have h2 : 1 + j0 - 1 = j0 := by omega
      rw [h1, h2]
    rw [hdrop]
    exact heqc
  · intro hall hnet
    have hbs := braceScan_no_zero (text.drop (i + 1)) 1 (le_refl 1)
      (fun j hj => by have := hall j hj; omega)
    unfold get_loop_body
    rw [hfind]
    show (text.drop i).take (1 + braceScan 1 (text.drop (i + 1))) = _
    rw [hbs]
    refine List.take_of_length_le ?_
    simp only [List.length_drop]
    omega

/-- Witness for C4: a balanced anchor (body ends at the balancing `}`) and
a truncated anchor (one extra `{`: the remainder from the anchor is
returned). -/
theorem c4_loop_body_brace_scan_witness :
    (get_loop_body c4Header c4BalText).getLast? = some '}' ∧
      get_loop_body c4Header c4TruncText = c4TruncText.drop 16 := by
  constructor
  · exact ((c4_loop_body_brace_scan c4Header c4BalText 16 (by decide)).1 29
      (by decide) (by decide) (by decide) (by decide)).2.1
  · exact (c4_loop_body_brace_scan c4Header c4TruncText 16 (by decide)).2
      (by decide) (by decide)

theorem splitLabelsFuel_seps :
    ∀ (fuel : Nat) (s : List Char), s.length < fuel →
      ∀ q ∈ (splitLabelsFuel fuel s).2,
        q.1.head? = some '\n' ∧ q.1.getLast? = some ':' := by
  intro fuel
  induction fuel with
  | zero => intro s hs; omega
  | succ fuel ih =>
    intro s hs q hq
    cases s with
    | nil => simp [splitLabelsFuel] at hq
    | cons c r =>
      simp only [splitLabelsFuel] at hq
      cases hd : labelMatchLen (c :: r) with
      | some n =>
        rw [hd] at hq
        have hlen : (r.drop (n - 1)).length < fuel := by
          simp only [List.length_cons] at hs
          simp only [List.length_drop]; omega
        rcases List.mem_cons.mp hq with rfl | hmem
        · obtain ⟨hhead, h3, hle, hcolon⟩ := labelMatchLen_spec hd
          constructor
          · rw [List.take_cons (by omega)]
            simp only [List.head?_cons]
            simpa using hhead
          · exact take_getLast? (by omega) hle hcolon
        · exact ih _ hlen q hmem
      | none =>
        rw [hd] at hq
        have hlen : r.length < fuel := by
          simp only [List.length_cons] at hs; omega
        exact ih r hlen q hq

theorem get_basic_blocks_shape {t b : List Char} (hb : b ∈ get_basic_blocks t) :
    b ≠ [] ∧ ∃ c ∈ b, pySpace c = false := by
  unfold get_basic_blocks at hb
  obtain ⟨hb2, hcond⟩ := List.mem_filter.mp hb
  have hne : b ≠ [] := by simpa using hcond
  refine ⟨hne, ?_⟩
  obtain ⟨q, _, rfl⟩ := List.mem_map.mp hb2
  unfold stripL at hne ⊢
  cases hC : (q.2.dropWhile pySpace).reverse.dropWhile pySpace with
  | nil => rw [hC] at hne; simp at hne
  | cons x xs =>
    have hx : pySpace x = false := by
      have hh := List.head?_dropWhile_not pySpace (q.2.dropWhile pySpace).reverse
      rw [hC] at hh
      simpa using hh
    refine ⟨x, ?_, hx⟩
    simp

/-- C6: the basic-block segmenter.  The split decomposition interleaves the
pre-first-label span with (separator, piece) segments whose concatenation
restores the text, so the returned blocks — drawn only from the pieces, in
segment order — follow textual order and exclude the span before the first
label; every separator is a label marker (it starts with the newline and
ends with the colon); and no returned block is empty or whitespace-only. -/
theorem c6_basic_block_segmentation (s : List Char) :
    ((splitLabelsAux s).1 ++ ((splitLabelsAux s).2.map (fun q => q.1 ++ q.2)).join = s) ∧
    List.Sublist (get_basic_blocks s) ((splitLabelsAux s).2.map (fun q => stripL q.2)) ∧
    (∀ q ∈ (splitLabelsAux s).2, q.1.head? = some '\n' ∧ q.1.getLast? = some ':') ∧
    (∀ b ∈ get_basic_blocks s, b ≠ [] ∧ ∃ c ∈ b, pySpace c = false) := by
  refine ⟨splitLabelsFuel_join _ s (by omega), ?_, splitLabelsFuel_seps _ s (by omega),
    fun b hb => get_basic_blocks_shape hb⟩
  exact List.filter_sublist _

/-- Witness for C6: a concrete segment and block of `c6Text`. -/
theorem c6_basic_block_segmentation_witness :
    ((("\nentry:").toList, ("\n  %a = add i32 1, 2").toList).1.head? = some '\n' ∧
      (("\nentry:").toList, ("\n  %a = add i32 1, 2").toList).1.getLast? = some ':') ∧
    (("%a = add i32 1, 2").toList ≠ [] ∧
      ∃ c ∈ ("%a = add i32 1, 2").toList, pySpace c = false) :=
  ⟨(c6_basic_block_segmentation c6Text).2.2.1 _ (by decide),
   (c6_basic_block_segmentation c6Text).2.2.2 _ (by decide)⟩

theorem atTokenAt_cons_succ {c : Char} {r : List Char} {i : Nat} :
    AtTokenAt (c :: r) (i + 1) ↔ AtTokenAt r i := by
  unfold AtTokenAt
  rw [List.getElem?_cons_succ, List.getElem?_cons_succ]

theorem atTokenAt_zero {c : Char} {r : List Char} :
    AtTokenAt (c :: r) 0 ↔ c = '@' ∧ (r[0]?).any isWordDot = true := by
  unfold AtTokenAt
  rw [List.getElem?_cons_zero, List.getElem?_cons_succ]
  simp

theorem atTokenRun_none :
    ∀ {t : List Char}, atTokenRun t = none → ∀ i, ¬ AtTokenAt t i := by
  intro t
  induction t with
  | nil =>
    intro _ i hAt
    obtain ⟨h1, _⟩ := hAt
    simp at h1
  | cons c r ih =>
    intro h i hAt
    simp only [atTokenRun] at h
    by_cases hcond : (c = '@' && (r.head?.any isWordDot)) = true
    · rw [if_pos hcond] at h
      exact absurd h (by simp)
    · rw [if_neg hcond] at h
      cases i with
      | zero =>
        obtain ⟨h1, h2⟩ := hAt
        rw [List.getElem?_cons_zero] at h1
        rw [List.getElem?_cons_succ, ← List.head?_eq_getElem?] at h2
        refine hcond ?_
        simp only [Bool.and_eq_true, decide_eq_true_eq]
        exact ⟨by simpa using h1, h2⟩
      | succ j => exact ih h j (atTokenAt_cons_succ.mp hAt)

theorem atTokenRun_some :
    ∀ {t run : List Char}, atTokenRun t = some run →
      ∃ i, AtTokenAt t i ∧ run = (t.drop (i + 1)).takeWhile isWordDot ∧
        ∀ j, j < i → ¬ AtTokenAt t j := by
  intro t
  induction t with
  | nil => intro run h; simp [atTokenRun] at h
  | cons c r ih =>
    intro run h
    simp only [atTokenRun] at h
    by_cases hcond : (c = '@' && (r.head?.any isWordDot)) = true
    · rw [if_pos hcond] at h
      obtain rfl : run = r.takeWhile isWordDot := by simpa using h.symm
      simp only [Bool.and_eq_true, decide_eq_true_eq] at hcond
      refine ⟨0, ?_, by simp, fun j hj => absurd hj (by omega)⟩
      constructor
      · rw [List.getElem?_cons_zero, hcond.1]
      · rw [List.getElem?_cons_succ, ← List.head?_eq_getElem?]
        exact hcond.2
    · rw [if_neg hcond] at h
      obtain ⟨i, hAt, hrun, hmin⟩ := ih h
      refine ⟨i + 1, atTokenAt_cons_succ.mpr hAt, by simpa using hrun, ?_⟩
      intro j hj
      cases j with
      | zero =>
        intro hAt0
        obtain ⟨h1, h2⟩ := hAt0
        rw [List.getElem?_cons_zero] at h1
        rw [List.getElem?_cons_succ, ← List.head?_eq_getElem?] at h2
        refine hcond ?_
        simp only [Bool.and_eq_true, decide_eq_true_eq]
        exact ⟨by simpa using h1, h2⟩
      | succ j2 =>
        intro hAtj
        exact hmin j2 (by omega) (atTokenAt_cons_succ.mp hAtj)

/-- C7 (amended): the extracted function name is the first `@`-token of the
ENTIRE region text, not just of the header line — the search is leftmost,
so a token on the header line wins when one exists, but a region whose
header line has no token still takes the first token of the body; the
sentinel `unknown` is returned exactly when the whole region contains no
`@`-token. -/
theorem c7_name_first_token_whole_region (t : List Char) :
    ((∀ i, ¬ AtTokenAt t i) → get_function_name t = "unknown") ∧
    (∀ i, AtTokenAt t i → (∀ j, j < i → ¬ AtTokenAt t j) →
      get_function_name t = String.mk ((t.drop (i + 1)).takeWhile isWordDot)) := by
  constructor
  · intro hno
    cases h : atTokenRun t with
    | none => simp [get_function_name, h]
    | some run =>
      obtain ⟨i, hAt, _, _⟩ := atTokenRun_some h
      exact absurd hAt (hno i)
  · intro i hAt hmin
    cases h : atTokenRun t with
    | none => exact absurd hAt (atTokenRun_none h i)
    | some run =>
      obtain ⟨i2, hAt2, hrun, hmin2⟩ := atTokenRun_some h
      have hieq : i = i2 := by
        rcases lt_trichotomy i i2 with hlt | heq | hgt
        · exact absurd hAt (hmin2 i hlt)
        · exact heq
        · exact absurd hAt2 (hmin i2 hgt)
      subst hieq
      simp [get_function_name, h, hrun]

/-- Witness for C7: the first token of `selfRecText` is at position 12 and
the extracted name is the token run that follows it. -/
theorem c7_name_first_token_whole_region_witness :
    get_function_name selfRecText =
      String.mk ((selfRecText.drop 13).takeWhile isWordDot) :=
  (c7_name_first_token_whole_region selfRecText).2 12 (by decide) (by decide)

theorem filter_length_lt {l : List String} {p : String → Bool} {a : String}
    (ha : a ∈ l) (hpa : p a = false) : (l.filter p).length < l.length := by
  induction l with
  | nil => cases ha
  | cons b l ih =>
    rcases List.mem_cons.mp ha with rfl | hmem
    · have hle := List.length_filter_le p l
      simp only [List.filter_cons, hpa, List.length_cons]
      rw [if_neg (by decide)]
      omega
    · simp only [List.filter_cons]
      by_cases hb : p b = true
      · rw [if_pos hb]
        simp only [List.length_cons]
        exact Nat.succ_lt_succ (ih hmem)
      · rw [if_neg hb]
        simp only [List.length_cons]
        exact Nat.lt_succ_of_lt (ih hmem)

theorem assoc_val_eq {funcs : List (String × List Char)}
    (hnd : (funcs.map Prod.fst).Nodup) {k : String} {a b : List Char}
    (ha : (k, a) ∈ funcs) (hb : (k, b) ∈ funcs) : a = b := by
  induction funcs with
  | nil => cases ha
  | cons p l ih =>
    simp only [List.map_cons, List.nodup_cons] at hnd
    rcases List.mem_cons.mp ha with h1 | h1 <;> rcases List.mem_cons.mp hb with h2 | h2
    · exact congrArg Prod.snd (h1.trans h2.symm)
    · exfalso
      apply hnd.1
      have h3 : p.1 = k := by rw [← h1]
      rw [h3]
      simpa using List.mem_map_of_mem Prod.fst h2
    · exfalso
      apply hnd.1
      have h3 : p.1 = k := by rw [← h2]
      rw [h3]
      simpa using List.mem_map_of_mem Prod.fst h1
    · exact ih hnd.2 h1 h2

theorem find_caller_mem {funcs : List (String × List Char)} {cur c : List Char}
    (h : find_caller funcs cur = some c) : ∃ k, (k, c) ∈ funcs := by
  unfold find_caller at h
  cases hf : funcs.find? (fun p => search_call_name (get_function_name cur) p.2) with
  | none => rw [hf] at h; exact absurd h (by simp)
  | some q =>
    rw [hf] at h
    obtain rfl : c = q.2 := by simpa using h.symm
    exact ⟨q.1, by simpa using List.mem_of_find?_eq_some hf⟩

theorem filter_not_contains_cons {keys : List String} (hnd : keys.Nodup) {a : String}
    {v : List String} (ha : a ∈ keys) (hv : v.contains a = false) :
    (keys.filter (fun x => !((a :: v).contains x))).length + 1 =
      (keys.filter (fun x => !(v.contains x))).length := by
  induction keys with
  | nil => cases ha
  | cons b l ih =>
    simp only [List.nodup_cons] at hnd
    rcases List.mem_cons.mp ha with rfl | hmem
    · have hcong : l.filter (fun x => !((a :: v).contains x)) =
          l.filter (fun x => !(v.contains x)) := by
        refine List.filter_congr ?_
        intro x hx
        have hxa : (x == a) = false := by
          have hne : x ≠ a := fun hxe => hnd.1 (hxe ▸ hx)
          simpa using hne
        rw [show ((a :: v).contains x) = (x == a || v.contains x) from rfl, hxa,
          Bool.false_or]
      have hcond1 : (!((a :: v).contains a)) = false := by
        rw [show ((a :: v).contains a) = (a == a || v.contains a) from rfl,
          beq_self_eq_true, Bool.true_or]
        rfl
      have hcond2 : (!(v.contains a)) = true := by rw [hv]; rfl
      simp only [List.filter_cons, hcond1, hcond2]
      rw [if_neg (by decide), if_pos (by decide), hcong]
      simp
    · have hba : (b == a) = false := by
        have hne : b ≠ a := fun hxe => hnd.1 (hxe ▸ hmem)
        simpa using hne
      have hcont : ((a :: v).contains b) = (v.contains b) := by
        rw [show ((a :: v).contains b) = (b == a || v.contains b) from rfl, hba,
          Bool.false_or]
      simp only [List.filter_cons, hcont]
      by_cases hb : (v.contains b) = true
      · rw [hb]
        rw [if_neg (by decide), if_neg (by decide)]
        exact ih hnd.2 hmem
      · rw [Bool.not_eq_true] at hb
        rw [hb]
        rw [if_pos (by decide), if_pos (by decide)]
        simp only [List.length_cons]
        have := ih hnd.2 hmem
        omega

theorem heightAux_stable (funcs : List (String × List Char))
    (hnd : (funcs.map Prod.fst).Nodup)
    (hkey : ∀ p ∈ funcs, get_function_name p.2 = p.1) :
    ∀ n : Nat, ∀ (visited : List String) (cur : List Char),
      (∃ k, (k, cur) ∈ funcs) →
      ((funcs.map Prod.fst).filter
          (fun x => !((get_function_name cur :: visited).contains x))).length = n →
      ∀ fuel1 fuel2 : Nat, n + 2 ≤ fuel1 → n + 2 ≤ fuel2 →
        heightAux funcs fuel1 visited cur = heightAux funcs fuel2 visited cur ∧
        heightAux funcs fuel1 visited cur ≤ n + 1 := by
  intro n
  induction n using Nat.strong_induction_on with
  | _ n ihn =>
    intro visited cur hval hn fuel1 fuel2 hf1 hf2
    obtain ⟨g1, rfl⟩ : ∃ g, fuel1 = g + 1 := ⟨fuel1 - 1, by omega⟩
    obtain ⟨g2, rfl⟩ : ∃ g, fuel2 = g + 1 := ⟨fuel2 - 1, by omega⟩
    simp only [heightAux]
    cases hfc : find_caller funcs cur with
    | none => exact ⟨rfl, Nat.zero_le _⟩
    | some caller =>
      show (if (visited.contains (get_function_name caller)) = true then 0
          else 1 + heightAux funcs g1 (get_function_name cur :: visited) caller) =
        (if (visited.contains (get_function_name caller)) = true then 0
          else 1 + heightAux funcs g2 (get_function_name cur :: visited) caller) ∧
        (if (visited.contains (get_function_name caller)) = true then 0
          else 1 + heightAux funcs g1 (get_function_name cur :: visited) caller) ≤ n + 1
      by_cases hvis : (visited.contains (get_function_name caller)) = true
      · rw [if_pos hvis, if_pos hvis]
        exact ⟨rfl, Nat.zero_le _⟩
      · rw [if_neg hvis, if_neg hvis]
        rw [Bool.not_eq_true] at hvis
        obtain ⟨k2, hk2⟩ := find_caller_mem hfc
        have hkc2 : get_function_name caller = k2 := hkey _ hk2
        by_cases heqn : get_function_name caller = get_function_name cur
        · obtain ⟨k1, hk1⟩ := hval
          have hkc1 : get_function_name cur = k1 := hkey _ hk1
          have hk12 : k2 = k1 := by rw [← hkc2, heqn, hkc1]
          have hceq : caller = cur := assoc_val_eq hnd (hk12 ▸ hk2) hk1
          subst hceq
          obtain ⟨g1x, rfl⟩ : ∃ g, g1 = g + 1 := ⟨g1 - 1, by omega⟩
          obtain ⟨g2x, rfl⟩ : ∃ g, g2 = g + 1 := ⟨g2 - 1, by omega⟩
          have hcont : (((get_function_name caller :: visited).contains
              (get_function_name caller)) = true) := by
            rw [show ((get_function_name caller :: visited).contains
                (get_function_name caller)) =
              ((get_function_name caller == get_function_name caller) ||
                visited.contains (get_function_name caller)) from rfl]
            rw [beq_self_eq_true]
            rfl
          refine ⟨?_, ?_⟩
          · simp [heightAux, hfc, hcont]
          · simp only [heightAux, hfc, hcont, if_pos]
            omega
        · have hkeys : get_function_name caller ∈ funcs.map Prod.fst := by
            rw [hkc2]
            exact List.mem_map_of_mem Prod.fst hk2
          have hnotv : (((get_function_name cur :: visited).contains
              (get_function_name caller)) = false) := by
            rw [show ((get_function_name cur :: visited).contains
                (get_function_name caller)) =
              ((get_function_name caller == get_function_name cur) ||
                visited.contains (get_function_name caller)) from rfl]
            have h1 : (get_function_name caller == get_function_name cur) = false := by
              simpa using heqn
            rw [h1, hvis]
            rfl
          have hstep := filter_not_contains_cons hnd hkeys hnotv
          rw [hn] at hstep
          have hn1 : ((funcs.map Prod.fst).filter
              (fun x => !((get_function_name caller ::
                get_function_name cur :: visited).contains x))).length = n - 1 := by
            omega
          have hrec := ihn (n - 1) (by omega) (get_function_name cur :: visited) caller
            ⟨k2, hk2⟩ hn1 g1 g2 (by omega) (by omega)
          refine ⟨by rw [hrec.1], ?_⟩
          have := hrec.2
          omega

/-- C2: for every well-formed finite function-name-to-text mapping — keys
distinct and each key the extracted name of its text, exactly the
invariants of the dictionary built by the splitter — and every function in
it, the caller-height loop terminates: every fuel of at least
`funcs.length + 1` computes the same value (the loop stabilises, even when
the inferred call graph has a cycle of any length), and the number of hops
is bounded by the number of functions in the module. -/
theorem c2_caller_height_terminates (funcs : List (String × List Char))
    (hnd : (funcs.map Prod.fst).Nodup)
    (hkey : ∀ p ∈ funcs, get_function_name p.2 = p.1)
    (k : String) (f : List Char) (hmem : (k, f) ∈ funcs) :
    (∀ fuel : Nat, funcs.length + 1 ≤ fuel →
      heightAux funcs fuel [] f = calculate_caller_height funcs f) ∧
    calculate_caller_height funcs f ≤ funcs.length := by
  have hkf : get_function_name f = k := hkey _ hmem
  have hfk : get_function_name f ∈ funcs.map Prod.fst := by
    rw [hkf]
    exact List.mem_map_of_mem Prod.fst hmem
  have hlt : ((funcs.map Prod.fst).filter
      (fun x => !(([get_function_name f] : List String).contains x))).length <
      funcs.length := by
    have := @filter_length_lt (funcs.map Prod.fst)
      (fun x => !(([get_function_name f] : List String).contains x))
      (get_function_name f) hfk (by
        show (!(([get_function_name f] : List String).contains
          (get_function_name f))) = false
        rw [show (([get_function_name f] : List String).contains
            (get_function_name f)) =
          ((get_function_name f == get_function_name f) ||
            ([] : List String).contains (get_function_name f)) from rfl]
        rw [beq_self_eq_true]
        rfl)
    simpa using this
  set n0 := ((funcs.map Prod.fst).filter
    (fun x => !(([get_function_name f] : List String).contains x))).length with hn0
  have hstab := heightAux_stable funcs hnd hkey n0 [] f ⟨k, hmem⟩ hn0.symm
  constructor
  · intro fuel hfuel
    have h1 := hstab fuel (funcs.length + 2) (by omega) (by omega)
    exact h1.1
  · have h2 := hstab (funcs.length + 2) (funcs.length + 2) (by omega) (by omega)
    calc calculate_caller_height funcs f ≤ n0 + 1 := h2.2
      _ ≤ funcs.length := by omega

/-- Witness for C2: the two-function mapping where `E` calls `D` and
itself; `D`'s caller height is 2, within the bound, and any sufficient
fuel computes the same value. -/
theorem c2_caller_height_terminates_witness :
    heightAux [("D", fDText), ("E", fEText)] 3 [] fDText =
      calculate_caller_height [("D", fDText), ("E", fEText)] fDText ∧
    calculate_caller_height [("D", fDText), ("E", fEText)] fDText ≤ 2 := by
  have h := c2_caller_height_terminates [("D", fDText), ("E", fEText)]
    (by decide) (by decide) "D" fDText (by decide)
  exact ⟨h.1 3 (by decide), h.2⟩
